import Mathlib

/-!
# Trie autocorrect: the prefix tree, the bounded edit distance and the suggestion search

A shallow embedding of `src/trie.cpp` (classes `TrieNode` and `Trie`) and the properties
proved of it.

Conventions of the embedding:

* a `std::string` is the list of its characters (`Word`);
* `int` values are integers. The counter `frequency`, which repeated inserts of one word
  drive past the range of `int`, wraps around modulo 2^32 (`wrapInt32`); lengths, distances
  and `totalWords` are taken to stay inside the range of `int`, where the C++ arithmetic and
  the integer arithmetic agree;
* an `unordered_map<char,TrieNode*>` is the list of its entries in iteration order; `find`
  and `operator[]` act on the first entry with the key, and a map never holds a key twice
  (`TrieNode.wf`). Statements made for every well-formed tree cover every iteration order;
* the table `dp` of `minEditDistance` is a function from row and column to the cell;
* `std::sort` is an argument of `autoCorrect`, constrained by `IsStdSort` where its result
  matters: a rearrangement of the input, ordered by the comparator. `sortDescending` is one
  such sort.
-/

/-! ## Definitions -/

/-- A `std::string`: the sequence of its characters. -/
abbrev Word := List Char

/-- Cost of substituting `x` by `y`. -/
def subCost (x y : Char) : Nat := if x = y then 0 else 1

/-- The Levenshtein distance of two words: the least number of single-character insertions,
deletions and substitutions turning one into the other (unit costs). -/
def lev (a b : Word) : Nat := levenshtein Levenshtein.defaultCost a b

/-- The table `dp` of `minEditDistance`: cell `dp[r][j]` is `dp r j`. -/
abbrev Table := Nat → Nat → Int

/-- The assignment `dp[r][j] = v`. -/
def Table.set (dp : Table) (r j : Nat) (v : Int) : Table :=
  fun r' j' => if r' = r ∧ j' = j then v else dp r' j'

/-- The character `w[i]`. -/
def charAt (w : Word) (i : Nat) : Char := w.getD i default

/-- Body of the inner loop of `minEditDistance` at column `j` of row `i`;
the state is the table and `minVal`. -/
def cellStep (word1 word2 : Word) (i : Nat) (st : Table × Int) (j : Nat) : Table × Int :=
  let curr := i &&& 1
  let prev := 1 - curr
  let dp := st.1
  let dp' :=
    if charAt word1 (i - 1) = charAt word2 (j - 1) then
      dp.set curr j (dp prev (j - 1))
    else
      dp.set curr j (1 + min (dp prev j) (min (dp curr (j - 1)) (dp prev (j - 1))))
  (dp', min st.2 (dp' curr j))

/-- Row `i` of `minEditDistance`: `dp[curr][0]=i; minVal=i;` then the loop over
`j = 1 .. n`. Returns the table and `minVal`. -/
def fillRow (word1 word2 : Word) (i : Nat) (dp : Table) : Table × Int :=
  (List.range' 1 word2.length).foldl (cellStep word1 word2 i)
    (dp.set (i &&& 1) 0 (i : Int), (i : Int))

/-- The outer loop of `minEditDistance` over the remaining row indices, with its
early `return maxDist+1` and the final `return dp[m&1][n]`. -/
def rowLoop (word1 word2 : Word) (maxDist : Int) : List Nat → Table → Int
  | [], dp => dp (word1.length &&& 1) word2.length
  | i :: rest, dp =>
    let st := fillRow word1 word2 i dp
    if st.2 > maxDist then maxDist + 1 else rowLoop word1 word2 maxDist rest st.1

/-- The table after `vector<vector<int>>dp(2,vector<int>(n+1))` and the loop
`dp[0][j]=j` for `j = 0 .. n`. -/
def initTable (n : Nat) : Table :=
  (List.range (n + 1)).foldl (fun dp j => dp.set 0 j (j : Int)) (fun _ _ => 0)

/-- The method `Trie::minEditDistance`. -/
def minEditDistance (word1 word2 : Word) (maxDist : Int) : Int :=
  let m := word1.length
  let n := word2.length
  if |(m : Int) - (n : Int)| > maxDist then maxDist + 1
  else rowLoop word1 word2 maxDist (List.range' 1 m) (initTable n)

/-- The cell the table is meant to hold at row `i`, column `j`. -/
def cell (a b : Word) (i j : Nat) : Int := (lev (a.take i) (b.take j) : Int)

/-- The value an `int` holds after an arithmetic result `x`: `x` itself inside the range of
`int`, and `x` wrapped around modulo 2^32 outside of it. -/
def wrapInt32 (x : Int) : Int := (x + 2147483648) % 4294967296 - 2147483648

/-- The class `TrieNode`: the children map (as the list of its entries, in iteration
order), `isEndOfWord` and `frequency`. -/
inductive TrieNode where
  | mk (children : List (Char × TrieNode)) (isEndOfWord : Bool) (frequency : Int)

namespace TrieNode

/-- The field `children`. -/
def children : TrieNode → List (Char × TrieNode)
  | mk cs _ _ => cs

/-- The field `isEndOfWord`. -/
def isEndOfWord : TrieNode → Bool
  | mk _ e _ => e

/-- The field `frequency`. -/
def frequency : TrieNode → Int
  | mk _ _ f => f

/-- The node built by `new TrieNode()`. -/
def new : TrieNode := mk [] false 0

end TrieNode

/-- The lookup `children.find(ch)`: the child stored under `ch`, if any. -/
def findChild : List (Char × TrieNode) → Char → Option TrieNode
  | [], _ => none
  | (k, c) :: rest, ch => if k = ch then some c else findChild rest ch

/-- The assignment `children[ch] = c`: sets the entry of `ch`, adding it when absent. -/
def setChild : List (Char × TrieNode) → Char → TrieNode → List (Char × TrieNode)
  | [], ch, c => [(ch, c)]
  | (k, v) :: rest, ch, c =>
    if k = ch then (ch, c) :: rest else (k, v) :: setChild rest ch c

/-- The walk of `Trie::insert` from `current` along `word`, creating missing nodes, then
the update of the terminal node (`frequency++` on an `int`). Returns the rebuilt node and
the value of `!current->isEndOfWord` at the terminal node (whether `totalWords` is
incremented). -/
def insertNode : TrieNode → Word → TrieNode × Bool
  | .mk cs e f, [] => (.mk cs true (wrapInt32 (f + 1)), !e)
  | .mk cs e f, ch :: rest =>
    let child := match findChild cs ch with
      | none => TrieNode.new
      | some c => c
    let r := insertNode child rest
    (.mk (setChild cs ch r.1) e f, r.2)

/-- The walk of `Trie::search` from `current` along `word`. -/
def searchNode : TrieNode → Word → Bool
  | n, [] => n.isEndOfWord
  | n, ch :: rest =>
    match findChild n.children ch with
    | none => false
    | some c => searchNode c rest

/-- The node reached from `n` along `word`, if every edge exists. -/
def nodeAt : TrieNode → Word → Option TrieNode
  | n, [] => some n
  | n, ch :: rest =>
    match findChild n.children ch with
    | none => none
    | some c => nodeAt c rest

/-- The vector `results` of `autoCorrect`: pairs of a word and its frequency. -/
abbrev Results := List (Word × Int)

/-- State threaded through `dfsSearch`: `results` and the set `seen`. -/
abbrev DfsState := Results × List Word

mutual
/-- The method `Trie::dfsSearch`. -/
def dfsSearch (node : TrieNode) (currentWord target : Word) (maxDist : Int)
    (st : DfsState) : DfsState :=
  match node with
  | .mk cs e f =>
    let st1 :=
      if e && decide (currentWord.length > 0) then
        if currentWord ∉ st.2 then
          let dist := minEditDistance target currentWord maxDist
          if dist ≤ maxDist then (st.1 ++ [(currentWord, f)], currentWord :: st.2) else st
        else st
      else st
    dfsChildren cs currentWord target maxDist st1
/-- The loop `for(auto&pair:node->children)` of `dfsSearch`. -/
def dfsChildren (cs : List (Char × TrieNode)) (currentWord target : Word) (maxDist : Int)
    (st : DfsState) : DfsState :=
  match cs with
  | [] => st
  | (ch, c) :: rest =>
    dfsChildren rest currentWord target maxDist
      (dfsSearch c (currentWord ++ [ch]) target maxDist st)
end

/-- The class `Trie`: the root node and `totalWords`. -/
structure Trie where
  root : TrieNode
  totalWords : Int

namespace Trie

/-- The constructor `Trie::Trie()`. -/
def empty : Trie := ⟨TrieNode.new, 0⟩

/-- The method `Trie::insert`. -/
def insert (t : Trie) (word : Word) : Trie :=
  let r := insertNode t.root word
  ⟨r.1, if r.2 then t.totalWords + 1 else t.totalWords⟩

/-- The method `Trie::search`. -/
def search (t : Trie) (word : Word) : Bool := searchNode t.root word

/-- The comparator handed to `std::sort` in `autoCorrect`. -/
def byFrequency (a b : Word × Int) : Bool := decide (a.2 > b.2)

/-- The method `Trie::autoCorrect`; `sort` stands for `std::sort` with the comparator
`byFrequency`. -/
def autoCorrect (sort : Results → Results) (t : Trie) (word : Word) (maxDist : Int) :
    List Word :=
  if t.search word then [word]
  else
    let results := sort (dfsSearch t.root [] word maxDist ([], [])).1
    let limit := min 5 results.length
    (List.range limit).map (fun i => (results.getD i ([], 0)).1)

/-- The frequency stored at the end of the path of `word` (0 when there is no such node). -/
def frequencyOf (t : Trie) (word : Word) : Int :=
  match nodeAt t.root word with
  | some n => n.frequency
  | none => 0

/-- Inserts the words of a list one after the other. -/
def insertAll (t : Trie) : List Word → Trie
  | [] => t
  | w :: ws => (t.insert w).insertAll ws

/-- The trees obtained from the empty tree by a sequence of inserts. -/
inductive Reachable : Trie → Prop where
  | empty : Reachable Trie.empty
  | insert (t : Trie) (word : Word) : Reachable t → Reachable (t.insert word)

end Trie

/-- What `std::sort(first, last, comp)` promises of the sorted range: it is a rearrangement
of the input, and no element is ordered by `comp` before one that precedes it. -/
def IsStdSort {α : Type} (comp : α → α → Bool) (sort : List α → List α) : Prop :=
  ∀ l, (sort l).Perm l ∧ (sort l).Pairwise (fun x y => comp y x = false)

/-- One admissible `std::sort` for `byFrequency`: insertion sort, highest frequency first. -/
def sortDescending (l : Results) : Results :=
  l.insertionSort (fun a b => b.2 ≤ a.2)

mutual
/-- Keys of every children map are pairwise distinct, as in an `unordered_map`. -/
def TrieNode.wf : TrieNode → Bool
  | .mk cs _ _ => decide ((cs.map Prod.fst).Nodup) && childrenWf cs
/-- Every child in the list is well formed. -/
def childrenWf : List (Char × TrieNode) → Bool
  | [] => true
  | (_, c) :: rest => c.wf && childrenWf rest
end

/-- The node `nd` lies below `n` along the edges spelling the word: each step takes an
entry of the children map. -/
def ReachVia (n : TrieNode) : Word → TrieNode → Prop
  | [], nd => nd = n
  | ch :: s, nd => ∃ c, (ch, c) ∈ n.children ∧ ReachVia c s nd

/-- The flag and counter found at the end of the path of a word; a missing node reads
as a fresh one. -/
def labelAt (n : TrieNode) (word : Word) : Bool × Int :=
  match nodeAt n word with
  | some nd => (nd.isEndOfWord, nd.frequency)
  | none => (false, 0)

/-- The pair `p` is what `dfsSearch` records at an end-of-word node below `node`, where
`cur` is the word spelled down to `node`. -/
def RecordedBelow (node : TrieNode) (cur target : Word) (maxDist : Int) (p : Word × Int) :
    Prop :=
  ∃ s nd, p.1 = cur ++ s ∧ ReachVia node s nd ∧ nd.isEndOfWord = true ∧
    nd.frequency = p.2 ∧ p.1 ≠ [] ∧ minEditDistance target p.1 maxDist ≤ maxDist

/-- The tree of the scenarios: "cat" inserted twice, then "cats" and "car". -/
def catTrie : Trie :=
  (((Trie.empty.insert ['c', 'a', 't']).insert ['c', 'a', 't']).insert
    ['c', 'a', 't', 's']).insert ['c', 'a', 'r']

/-- The vector `results` of `autoCorrect` when the traversal returns, before sorting. -/
def Trie.recorded (t : Trie) (word : Word) (maxDist : Int) : Results :=
  (dfsSearch t.root [] word maxDist ([], [])).1

/-- The set `seen` holds the words of `results`, and no word is recorded twice. -/
def DfsInv (st : DfsState) : Prop :=
  (st.1.map Prod.fst).Nodup ∧ ∀ w, w ∈ st.2 ↔ w ∈ st.1.map Prod.fst

/-- Every non-empty word within the bound that ends at an end-of-word node below `node` is
among the words of `results`; `cur` is the word spelled down to `node`. -/
def Covers (node : TrieNode) (cur target : Word) (maxDist : Int) (st : DfsState) : Prop :=
  ∀ s nd, ReachVia node s nd → nd.isEndOfWord = true → cur ++ s ≠ [] →
    minEditDistance target (cur ++ s) maxDist ≤ maxDist → cur ++ s ∈ st.1.map Prod.fst

mutual
/-- Number of nodes with `isEndOfWord` set in the tree below (and including) a node. -/
def countEnds : TrieNode → Nat
  | .mk cs e _ => (if e then 1 else 0) + countEndsList cs
/-- Number of nodes with `isEndOfWord` set below the entries of a children map. -/
def countEndsList : List (Char × TrieNode) → Nat
  | [] => 0
  | (_, c) :: rest => countEnds c + countEndsList rest
end

/-- The tree holding only the empty word. -/
def emptyWordTrie : Trie := Trie.empty.insert []

theorem subCost_le_one (x y : Char) : subCost x y ≤ 1 := by
  unfold subCost; split <;> omega

theorem subCost_self (x : Char) : subCost x x = 0 := by simp [subCost]

theorem subCost_comm (x y : Char) : subCost x y = subCost y x := by
  simp [subCost, eq_comm]

theorem subCost_of_ne {x y : Char} (h : x ≠ y) : subCost x y = 1 := by simp [subCost, h]

theorem lev_nil_left (b : Word) : lev [] b = b.length := by
  induction b with
  | nil => simp [lev]
  | cons y ys ih =>
    have h := ih
    unfold lev at h ⊢
    rw [levenshtein_nil_cons, h]
    simp [Levenshtein.defaultCost]; omega

theorem lev_nil_right (a : Word) : lev a [] = a.length := by
  induction a with
  | nil => simp [lev]
  | cons x xs ih =>
    have h := ih
    unfold lev at h ⊢
    rw [levenshtein_cons_nil, h]
    simp [Levenshtein.defaultCost]; omega

theorem lev_cons_cons (x : Char) (xs : Word) (y : Char) (ys : Word) :
    lev (x :: xs) (y :: ys)
      = min (lev xs (y :: ys) + 1) (min (lev (x :: xs) ys + 1) (lev xs ys + subCost x y)) := by
  unfold lev subCost
  rw [levenshtein_cons_cons]
  simp only [Levenshtein.defaultCost]
  simp only [Nat.add_comm]

theorem lev_comm (a b : Word) : lev a b = lev b a := by
  induction a generalizing b with
  | nil => rw [lev_nil_left, lev_nil_right]
  | cons x xs iha =>
    induction b with
    | nil => rw [lev_nil_left, lev_nil_right]
    | cons y ys ihb =>
      rw [lev_cons_cons, lev_cons_cons, iha (y :: ys), ihb, iha ys, subCost_comm x y]
      omega

theorem lev_cons_left_le (x : Char) (xs ys : Word) : lev (x :: xs) ys ≤ lev xs ys + 1 := by
  cases ys with
  | nil => simp [lev_nil_right]
  | cons y ys => rw [lev_cons_cons]; omega

theorem lev_cons_right_le (xs : Word) (y : Char) (ys : Word) :
    lev xs (y :: ys) ≤ lev xs ys + 1 := by
  rw [lev_comm xs (y :: ys), lev_comm xs ys]; exact lev_cons_left_le y ys xs

theorem lev_le_cons_left (x : Char) (xs ys : Word) : lev xs ys ≤ lev (x :: xs) ys + 1 := by
  induction ys with
  | nil => simp [lev_nil_right]; omega
  | cons y ys ih =>
    have h1 := lev_cons_right_le xs y ys
    have h2 := subCost_le_one x y
    rw [lev_cons_cons]; omega

theorem lev_le_cons_right (xs : Word) (y : Char) (ys : Word) :
    lev xs ys ≤ lev xs (y :: ys) + 1 := by
  rw [lev_comm xs (y :: ys), lev_comm xs ys]; exact lev_le_cons_left y ys xs

/-- Rearranging the nine candidates of a doubly unfolded recurrence. -/
theorem min_nine_swap (p q r s t u v w z c d : Nat) :
    min (min (p + 1) (min (q + 1) (r + c)) + 1)
        (min (min (s + 1) (min (t + 1) (u + c)) + 1) (min (v + 1) (min (w + 1) (z + c)) + d))
      = min (min (p + 1) (min (s + 1) (v + d)) + 1)
        (min (min (q + 1) (min (t + 1) (w + d)) + 1) (min (r + 1) (min (u + 1) (z + d)) + c)) := by
  apply eq_of_forall_le_iff
  intro k
  simp only [← Nat.add_min_add_right, le_min_iff]
  constructor <;> intro h <;> omega

/-- The recurrence read at the last characters, the form the row-by-row table uses. -/
theorem lev_snoc_snoc (a : Word) (x : Char) (b : Word) (y : Char) :
    lev (a ++ [x]) (b ++ [y])
      = min (lev a (b ++ [y]) + 1) (min (lev (a ++ [x]) b + 1) (lev a b + subCost x y)) := by
  induction a generalizing b with
  | nil =>
    induction b with
    | nil => simp [lev_cons_cons, lev_nil_left, lev_nil_right]
    | cons b0 bs ih =>
      simp only [List.nil_append, List.cons_append, lev_cons_cons, lev_nil_left, lev_nil_right,
        List.length_cons, List.length_append, List.length_nil] at ih ⊢
      omega
  | cons a0 as iha =>
    induction b with
    | nil =>
      have h := iha []
      simp only [List.nil_append, List.cons_append, lev_cons_cons, lev_nil_left, lev_nil_right,
        List.length_cons, List.length_append, List.length_nil] at h ⊢
      omega
    | cons b0 bs ihb =>
      have h1 := iha (b0 :: bs)
      have h2 := iha bs
      simp only [List.cons_append] at h1 h2 ihb ⊢
      rw [lev_cons_cons a0 (as ++ [x]) b0 (bs ++ [y]), h1, ihb, h2,
        lev_cons_cons a0 as b0 (bs ++ [y]), lev_cons_cons a0 (as ++ [x]) b0 bs,
        lev_cons_cons a0 as b0 bs]
      exact min_nine_swap _ _ _ _ _ _ _ _ _ _ _

theorem lev_reverse (a b : Word) : lev a.reverse b.reverse = lev a b := by
  induction a generalizing b with
  | nil => simp [lev_nil_left]
  | cons x xs iha =>
    induction b with
    | nil => simp [lev_nil_right]
    | cons y ys ihb =>
      have h1 := iha (y :: ys)
      have h2 := iha ys
      simp only [List.reverse_cons] at h1 ihb ⊢
      rw [lev_snoc_snoc, h1, ihb, h2, lev_cons_cons]

theorem lev_snoc_left_le (xs : Word) (x : Char) (ys : Word) :
    lev (xs ++ [x]) ys ≤ lev xs ys + 1 := by
  have h := lev_cons_left_le x xs.reverse ys.reverse
  have e : lev (x :: xs.reverse) ys.reverse = lev (xs ++ [x]) ys := by
    rw [← lev_reverse (xs ++ [x]) ys]; simp
  rw [e, lev_reverse] at h
  exact h

theorem lev_le_snoc_left (xs : Word) (x : Char) (ys : Word) :
    lev xs ys ≤ lev (xs ++ [x]) ys + 1 := by
  have h := lev_le_cons_left x xs.reverse ys.reverse
  have e : lev (x :: xs.reverse) ys.reverse = lev (xs ++ [x]) ys := by
    rw [← lev_reverse (xs ++ [x]) ys]; simp
  rw [e, lev_reverse] at h
  exact h

theorem lev_le_snoc_right (xs ys : Word) (y : Char) :
    lev xs ys ≤ lev xs (ys ++ [y]) + 1 := by
  rw [lev_comm xs (ys ++ [y]), lev_comm xs ys]; exact lev_le_snoc_left ys y xs

/-- Equal last characters: the distance is that of the two shorter prefixes. -/
theorem lev_snoc_same (a b : Word) (x : Char) : lev (a ++ [x]) (b ++ [x]) = lev a b := by
  have h1 := lev_le_snoc_left a x b
  have h2 := lev_le_snoc_right a b x
  rw [lev_snoc_snoc, subCost_self]; omega

/-- Different last characters: one more than the best of the three neighbours. -/
theorem lev_snoc_diff (a b : Word) {x y : Char} (h : x ≠ y) :
    lev (a ++ [x]) (b ++ [y])
      = 1 + min (lev a (b ++ [y])) (min (lev (a ++ [x]) b) (lev a b)) := by
  rw [lev_snoc_snoc, subCost_of_ne h]; omega

/-- The distance is at least the difference of the lengths. -/
theorem length_le_lev (a b : Word) :
    a.length ≤ b.length + lev a b ∧ b.length ≤ a.length + lev a b := by
  induction a generalizing b with
  | nil => simp [lev_nil_left]
  | cons x xs iha =>
    induction b with
    | nil => simp [lev_nil_right]
    | cons y ys ihb =>
      have h1 := iha (y :: ys)
      have h2 := iha ys
      rw [lev_cons_cons]
      simp only [List.length_cons] at h1 h2 ihb ⊢
      omega

theorem lev_le_length_add (a b : Word) : lev a b ≤ a.length + b.length := by
  induction a with
  | nil => simp [lev_nil_left]
  | cons x xs ih =>
    have := lev_cons_left_le x xs b
    simp only [List.length_cons]; omega

/-- Dropping the last character of the first word: some prefix of the second is no farther. -/
theorem exists_take_le_snoc (xs : Word) (x : Char) (ys : Word) :
    ∃ j, j ≤ ys.length ∧ lev xs (ys.take j) ≤ lev (xs ++ [x]) ys := by
  induction ys using List.reverseRecOn with
  | nil => exact ⟨0, by simp [lev_nil_right]⟩
  | append_singleton ys y ih =>
    obtain ⟨j, hj, hle⟩ := ih
    have hrec := lev_snoc_snoc xs x ys y
    by_cases c1 : lev xs (ys ++ [y]) + 1 ≤ lev (xs ++ [x]) (ys ++ [y])
    · exact ⟨(ys ++ [y]).length, le_refl _, by rw [List.take_length]; omega⟩
    · by_cases c2 : lev (xs ++ [x]) ys + 1 ≤ lev (xs ++ [x]) (ys ++ [y])
      · refine ⟨j, by simp; omega, ?_⟩
        rw [List.take_append_of_le_length hj]; omega
      · refine ⟨ys.length, by simp, ?_⟩
        rw [List.take_left']; omega
        rfl

/-- Every row of the table holds a cell no larger than the final distance. -/
theorem exists_take_le_append (xs' xs ys : Word) :
    ∃ j, j ≤ ys.length ∧ lev xs (ys.take j) ≤ lev (xs ++ xs') ys := by
  induction xs' generalizing xs with
  | nil => exact ⟨ys.length, le_refl _, by simp⟩
  | cons x xs'' ih =>
    obtain ⟨j1, hj1, h1⟩ := ih (xs ++ [x])
    obtain ⟨j2, hj2, h2⟩ := exists_take_le_snoc xs x (ys.take j1)
    refine ⟨min j2 j1, by omega, ?_⟩
    rw [List.take_take] at h2
    simp only [List.append_assoc, List.singleton_append] at h1
    omega

theorem exists_take_le (a b : Word) (i : Nat) :
    ∃ j, j ≤ b.length ∧ lev (a.take i) (b.take j) ≤ lev a b := by
  have h := exists_take_le_append (a.drop i) (a.take i) b
  rwa [List.take_append_drop] at h

/-! ## The table of `minEditDistance` -/

theorem Table.set_same (dp : Table) (r j : Nat) (v : Int) : (dp.set r j v) r j = v := by
  simp [Table.set]

theorem Table.set_other (dp : Table) (r j : Nat) (v : Int) (r' j' : Nat)
    (h : r' ≠ r ∨ j' ≠ j) : (dp.set r j v) r' j' = dp r' j' := by
  unfold Table.set
  rw [if_neg]
  rintro ⟨h1, h2⟩
  rcases h with h | h
  · exact h h1
  · exact h h2

theorem take_succ_charAt (w : Word) (i : Nat) (h : i < w.length) :
    w.take (i + 1) = w.take i ++ [charAt w i] := by
  rw [List.take_succ, charAt]
  simp [List.getD, List.getElem?_eq_getElem h]

theorem initTable_row (n j : Nat) (h : j ≤ n) : initTable n 0 j = (j : Int) := by
  have key : ∀ k j, j < k →
      ((List.range k).foldl (fun (dp : Table) j => dp.set 0 j (j : Int)) (fun _ _ => 0)) 0 j
        = (j : Int) := by
    intro k
    induction k with
    | zero => intro j hj; omega
    | succ k ih =>
      intro j hj
      rw [List.range_succ, List.foldl_append]
      simp only [List.foldl_cons, List.foldl_nil]
      by_cases e : j = k
      · subst e; rw [Table.set_same]
      · rw [Table.set_other _ _ _ _ _ _ (Or.inr e)]
        exact ih j (by omega)
  exact key (n + 1) j (by omega)


theorem cell_zero_right (a b : Word) (i : Nat) (h : i ≤ a.length) : cell a b i 0 = (i : Int) := by
  simp [cell, lev_nil_right, h]

theorem cell_zero_left (a b : Word) (j : Nat) (h : j ≤ b.length) : cell a b 0 j = (j : Int) := by
  simp [cell, lev_nil_left, h]

theorem cell_full (a b : Word) : cell a b a.length b.length = (lev a b : Int) := by
  simp [cell]

theorem cell_succ_same (a b : Word) (i j : Nat) (hi : i < a.length) (hj : j < b.length)
    (h : charAt a i = charAt b j) : cell a b (i + 1) (j + 1) = cell a b i j := by
  unfold cell
  rw [take_succ_charAt a i hi, take_succ_charAt b j hj, h, lev_snoc_same]

theorem cell_succ_diff (a b : Word) (i j : Nat) (hi : i < a.length) (hj : j < b.length)
    (h : charAt a i ≠ charAt b j) :
    cell a b (i + 1) (j + 1)
      = 1 + min (cell a b i (j + 1)) (min (cell a b (i + 1) j) (cell a b i j)) := by
  unfold cell
  rw [take_succ_charAt a i hi, take_succ_charAt b j hj, lev_snoc_diff _ _ h]
  push_cast
  rfl

theorem and_one_cases (i : Nat) : (i &&& 1 = 0 ∧ (i + 1) &&& 1 = 1) ∨ (i &&& 1 = 1 ∧ (i + 1) &&& 1 = 0) := by
  rw [Nat.and_one_is_mod, Nat.and_one_is_mod]; omega

/-- State of the inner loop after the columns `1 .. k` of row `i + 1`. -/
theorem fillRow_upto (a b : Word) (i : Nat) (hi : i < a.length) (dp : Table)
    (hprev : ∀ j, j ≤ b.length → dp (i &&& 1) j = cell a b i j) (k : Nat) (hk : k ≤ b.length) :
    let st := (List.range' 1 k).foldl (cellStep a b (i + 1))
      (dp.set ((i + 1) &&& 1) 0 ((i + 1 : Nat) : Int), ((i + 1 : Nat) : Int))
    (∀ j, j ≤ k → st.1 ((i + 1) &&& 1) j = cell a b (i + 1) j) ∧
    (∀ j, j ≤ b.length → st.1 (i &&& 1) j = cell a b i j) ∧
    (∀ j, j ≤ k → st.2 ≤ cell a b (i + 1) j) ∧
    (∃ j, j ≤ k ∧ st.2 = cell a b (i + 1) j) := by
  have hpar := and_one_cases i
  have hne : i &&& 1 ≠ (i + 1) &&& 1 := by omega
  have hprevIdx : 1 - ((i + 1) &&& 1) = i &&& 1 := by omega
  induction k with
  | zero =>
    simp only [List.range'_zero, List.foldl_nil]
    have h0 : cell a b (i + 1) 0 = ((i + 1 : Nat) : Int) := cell_zero_right a b (i + 1) (by omega)
    refine ⟨?_, ?_, ?_, ?_⟩
    · intro j hj
      have : j = 0 := by omega
      subst this
      rw [Table.set_same, h0]
    · intro j hj
      rw [Table.set_other _ _ _ _ _ _ (Or.inl hne)]
      exact hprev j hj
    · intro j hj
      have : j = 0 := by omega
      subst this
      rw [h0]
    · exact ⟨0, le_refl _, h0.symm⟩
  | succ k ih =>
    obtain ⟨ih1, ih2, ih3, j0, hj0, ih4⟩ := ih (by omega)
    rw [List.range'_concat, List.foldl_append]
    simp only [List.foldl_cons, List.foldl_nil, Nat.one_mul]
    generalize (List.range' 1 k).foldl (cellStep a b (i + 1))
      (dp.set ((i + 1) &&& 1) 0 ((i + 1 : Nat) : Int), ((i + 1 : Nat) : Int)) = st at ih1 ih2 ih3 ih4 ⊢
    have hnew : (cellStep a b (i + 1) st (1 + k)).1 ((i + 1) &&& 1) (1 + k)
        = cell a b (i + 1) (k + 1) := by
      simp only [cellStep, hprevIdx, Nat.add_sub_cancel, Nat.add_sub_cancel_left]
      by_cases hc : charAt a i = charAt b k
      · rw [if_pos hc, Table.set_same, ih2 k (by omega), cell_succ_same a b i k hi (by omega) hc]
      · rw [if_neg hc, Table.set_same, ih2 k (by omega), ih2 (1 + k) (by omega), ih1 k (by omega),
          cell_succ_diff a b i k hi (by omega) hc, Nat.add_comm 1 k]
    have hold : ∀ r j, (r ≠ (i + 1) &&& 1 ∨ j ≠ 1 + k) →
        (cellStep a b (i + 1) st (1 + k)).1 r j = st.1 r j := by
      intro r j h
      simp only [cellStep]
      split <;> exact Table.set_other _ _ _ _ _ _ h
    have hmin : (cellStep a b (i + 1) st (1 + k)).2 = min st.2 (cell a b (i + 1) (k + 1)) := by
      rw [← hnew]; rfl
    refine ⟨?_, ?_, ?_, ?_⟩
    · intro j hj
      by_cases e : j = 1 + k
      · subst e; rw [hnew, Nat.add_comm 1 k]
      · rw [hold _ _ (Or.inr e)]; exact ih1 j (by omega)
    · intro j hj
      rw [hold _ _ (Or.inl hne)]; exact ih2 j hj
    · intro j hj
      rw [hmin]
      by_cases e : j = k + 1
      · subst e; exact min_le_right _ _
      · exact le_trans (min_le_left _ _) (ih3 j (by omega))
    · rw [hmin]
      by_cases hle : st.2 ≤ cell a b (i + 1) (k + 1)
      · exact ⟨j0, by omega, by rw [min_eq_left hle]; exact ih4⟩
      · exact ⟨k + 1, le_refl _, by rw [min_eq_right (by omega)]⟩

/-- What `fillRow` leaves behind: row `i + 1` of the table and its minimum. -/
theorem fillRow_spec (a b : Word) (i : Nat) (hi : i < a.length) (dp : Table)
    (hprev : ∀ j, j ≤ b.length → dp (i &&& 1) j = cell a b i j) :
    (∀ j, j ≤ b.length → (fillRow a b (i + 1) dp).1 ((i + 1) &&& 1) j = cell a b (i + 1) j) ∧
    (∀ j, j ≤ b.length → (fillRow a b (i + 1) dp).2 ≤ cell a b (i + 1) j) ∧
    (∃ j, j ≤ b.length ∧ (fillRow a b (i + 1) dp).2 = cell a b (i + 1) j) := by
  obtain ⟨h1, _, h3, h4⟩ := fillRow_upto a b i hi dp hprev b.length (le_refl _)
  exact ⟨h1, h3, h4⟩

/-- The outer loop started at row `i + 1` on a table whose row `i` is right: it returns
the distance, or `maxDist + 1` when the distance is beyond the bound. -/
theorem rowLoop_spec (a b : Word) (maxDist : Int) (k i : Nat) (hik : i + k = a.length)
    (dp : Table) (hprev : ∀ j, j ≤ b.length → dp (i &&& 1) j = cell a b i j) :
    rowLoop a b maxDist (List.range' (i + 1) k) dp = (lev a b : Int) ∨
    (rowLoop a b maxDist (List.range' (i + 1) k) dp = maxDist + 1 ∧ maxDist < (lev a b : Int)) := by
  induction k generalizing i dp with
  | zero =>
    left
    have : i = a.length := by omega
    subst this
    simp only [List.range'_zero, rowLoop]
    rw [hprev _ (le_refl _), cell_full]
  | succ k ih =>
    rw [List.range'_succ]
    simp only [rowLoop]
    obtain ⟨h1, h2, j, hj, h3⟩ := fillRow_spec a b i (by omega) dp hprev
    by_cases hab : (fillRow a b (i + 1) dp).2 > maxDist
    · right
      rw [if_pos hab]
      refine ⟨rfl, ?_⟩
      obtain ⟨j', hj', hle⟩ := exists_take_le a b (i + 1)
      have := h2 j' hj'
      have hc : cell a b (i + 1) j' ≤ (lev a b : Int) := by
        unfold cell; exact_mod_cast hle
      omega
    · rw [if_neg hab]
      exact ih (i + 1) (by omega) _ h1

/-- The value of `minEditDistance`: the Levenshtein distance, or `maxDist + 1` when
the distance is larger than `maxDist`. -/
theorem minEditDistance_spec (a b : Word) (maxDist : Int) :
    minEditDistance a b maxDist = (lev a b : Int) ∨
    (minEditDistance a b maxDist = maxDist + 1 ∧ maxDist < (lev a b : Int)) := by
  unfold minEditDistance
  simp only []
  by_cases hgap : |(a.length : Int) - (b.length : Int)| > maxDist
  · right
    rw [if_pos hgap]
    refine ⟨rfl, ?_⟩
    obtain ⟨h1, h2⟩ := length_le_lev a b
    have : |(a.length : Int) - (b.length : Int)| ≤ (lev a b : Int) := by
      rw [abs_le]; constructor <;> omega
    omega
  · rw [if_neg hgap]
    have h := rowLoop_spec a b maxDist a.length 0 (by omega) (initTable b.length) (by
      intro j hj
      have : (0 : Nat) &&& 1 = 0 := by decide
      rw [this, initTable_row _ _ hj, cell_zero_left a b j hj])
    simpa using h

theorem findChild_setChild_same (cs : List (Char × TrieNode)) (ch : Char) (c : TrieNode) :
    findChild (setChild cs ch c) ch = some c := by
  induction cs with
  | nil => simp [setChild, findChild]
  | cons p rest ih =>
    obtain ⟨k, v⟩ := p
    by_cases h : k = ch
    · simp [setChild, findChild, h]
    · simp [setChild, findChild, h, ih]

theorem findChild_setChild_other (cs : List (Char × TrieNode)) (ch : Char) (c : TrieNode)
    (ch' : Char) (hne : ch' ≠ ch) : findChild (setChild cs ch c) ch' = findChild cs ch' := by
  induction cs with
  | nil => simp [setChild, findChild, Ne.symm hne]
  | cons p rest ih =>
    obtain ⟨k, v⟩ := p
    by_cases h : k = ch
    · subst h
      simp [setChild, findChild, Ne.symm hne]
    · by_cases h' : k = ch'
      · subst h'
        simp [setChild, findChild, h]
      · simp [setChild, findChild, h, h', ih]

theorem insertNode_nil (cs : List (Char × TrieNode)) (e : Bool) (f : Int) :
    insertNode (.mk cs e f) [] = (.mk cs true (wrapInt32 (f + 1)), !e) := rfl

theorem insertNode_cons (cs : List (Char × TrieNode)) (e : Bool) (f : Int) (ch : Char)
    (rest : Word) :
    insertNode (.mk cs e f) (ch :: rest)
      = (.mk (setChild cs ch (insertNode ((findChild cs ch).getD TrieNode.new) rest).1) e f,
          (insertNode ((findChild cs ch).getD TrieNode.new) rest).2) := by
  cases h : findChild cs ch <;> simp [insertNode, h]

theorem searchNode_insertNode (n : TrieNode) (w : Word) :
    searchNode (insertNode n w).1 w = true := by
  induction w generalizing n with
  | nil => obtain ⟨cs, e, f⟩ := n; rfl
  | cons ch rest ih =>
    obtain ⟨cs, e, f⟩ := n
    rw [insertNode_cons]
    simp only [searchNode, TrieNode.children, findChild_setChild_same]
    exact ih _

theorem range_map_getD {α β : Type} (f : α → β) (l : List α) (d : α) (k : Nat)
    (hk : k ≤ l.length) :
    (List.range k).map (fun i => f (l.getD i d)) = (l.take k).map f := by
  apply List.ext_getElem
  · simp [hk]
  · intro i h1 h2
    simp at h1 h2
    simp [List.getD, List.getElem?_eq_getElem (show i < l.length by omega)]

theorem take_min_length {α : Type} (k : Nat) (l : List α) :
    l.take (min k l.length) = l.take k := by
  rcases Nat.le_total k l.length with h | h
  · rw [min_eq_left h]
  · rw [min_eq_right h, List.take_of_length_le h, List.take_of_length_le (le_refl _)]

theorem autoCorrect_of_search (sort : Results → Results) (t : Trie) (w : Word) (k : Int)
    (h : t.search w = true) : t.autoCorrect sort w k = [w] := by
  unfold Trie.autoCorrect
  rw [if_pos h]

theorem autoCorrect_of_not_search (sort : Results → Results) (t : Trie) (w : Word) (k : Int)
    (h : t.search w = false) :
    t.autoCorrect sort w k
      = ((sort (dfsSearch t.root [] w k ([], [])).1).take 5).map Prod.fst := by
  unfold Trie.autoCorrect
  rw [if_neg (by simp [h])]
  simp only []
  rw [range_map_getD _ _ _ _ (min_le_right _ _)]
  congr 1
  exact take_min_length 5 _

theorem sortDescending_isStdSort : IsStdSort Trie.byFrequency sortDescending := by
  intro l
  haveI : IsTotal (Word × Int) (fun a b => b.2 ≤ a.2) := ⟨fun a b => le_total b.2 a.2⟩
  haveI : IsTrans (Word × Int) (fun a b => b.2 ≤ a.2) := ⟨fun a b c h1 h2 => le_trans h2 h1⟩
  refine ⟨List.perm_insertionSort _ l, ?_⟩
  have hs := List.sorted_insertionSort (fun a b : Word × Int => b.2 ≤ a.2) l
  refine List.Pairwise.imp ?_ hs
  intro a b hab
  simp only [Trie.byFrequency, decide_eq_false_iff_not, not_lt, gt_iff_lt]
  exact hab

theorem dfsSearch_mk (cs : List (Char × TrieNode)) (e : Bool) (f : Int)
    (cur target : Word) (k : Int) (st : DfsState) :
    dfsSearch (.mk cs e f) cur target k st
      = dfsChildren cs cur target k
          (if e && decide (cur.length > 0) then
            if cur ∉ st.2 then
              if minEditDistance target cur k ≤ k then (st.1 ++ [(cur, f)], cur :: st.2) else st
            else st
          else st) := by
  rw [dfsSearch]

theorem dfsChildren_nil (cur target : Word) (k : Int) (st : DfsState) :
    dfsChildren [] cur target k st = st := by
  rw [dfsChildren]

theorem dfsChildren_cons (ch : Char) (c : TrieNode) (rest : List (Char × TrieNode))
    (cur target : Word) (k : Int) (st : DfsState) :
    dfsChildren ((ch, c) :: rest) cur target k st
      = dfsChildren rest cur target k (dfsSearch c (cur ++ [ch]) target k st) := by
  rw [dfsChildren]

mutual
/-- Every pair in `results` after `dfsSearch` was there before or is recorded below `node`. -/
theorem dfsSearch_sound : ∀ (node : TrieNode) (cur target : Word) (k : Int) (st : DfsState)
    (p : Word × Int), p ∈ (dfsSearch node cur target k st).1 →
    p ∈ st.1 ∨ RecordedBelow node cur target k p
  | .mk cs e f, cur, target, k, st, p, hp => by
    rw [dfsSearch_mk] at hp
    rcases dfsChildren_sound cs cur target k _ p hp with h | ⟨ch, c, hmem, s, nd, h1, h2, h3⟩
    · by_cases hc : (e && decide (cur.length > 0)) = true ∧ cur ∉ st.2 ∧
          minEditDistance target cur k ≤ k
      · obtain ⟨hc1, hc2, hc3⟩ := hc
        rw [if_pos hc1, if_pos hc2, if_pos hc3] at h
        simp only [List.mem_append, List.mem_singleton] at h
        rcases h with h | h
        · exact Or.inl h
        · right
          simp only [Bool.and_eq_true, decide_eq_true_eq] at hc1
          refine ⟨[], .mk cs e f, ?_, rfl, hc1.1, ?_, ?_, ?_⟩
          · simp [h]
          · simp [h, TrieNode.frequency]
          · rw [h]; intro hnil
            have hlen := hc1.2
            simp only [] at hnil
            rw [hnil] at hlen
            simp at hlen
          · rw [h]; exact hc3
      · left
        by_cases hc1 : (e && decide (cur.length > 0)) = true
        · rw [if_pos hc1] at h
          by_cases hc2 : cur ∉ st.2
          · rw [if_pos hc2] at h
            by_cases hc3 : minEditDistance target cur k ≤ k
            · exact absurd ⟨hc1, hc2, hc3⟩ hc
            · rw [if_neg hc3] at h; exact h
          · rw [if_neg hc2] at h; exact h
        · rw [if_neg hc1] at h; exact h
    · right
      refine ⟨ch :: s, nd, ?_, ⟨c, hmem, h2⟩, h3⟩
      rw [h1]; simp
/-- The same for the loop over the children. -/
theorem dfsChildren_sound : ∀ (cs : List (Char × TrieNode)) (cur target : Word) (k : Int)
    (st : DfsState) (p : Word × Int), p ∈ (dfsChildren cs cur target k st).1 →
    p ∈ st.1 ∨ ∃ ch c, (ch, c) ∈ cs ∧ RecordedBelow c (cur ++ [ch]) target k p
  | [], cur, target, k, st, p, hp => by
    rw [dfsChildren_nil] at hp
    exact Or.inl hp
  | (ch, c) :: rest, cur, target, k, st, p, hp => by
    rw [dfsChildren_cons] at hp
    rcases dfsChildren_sound rest cur target k _ p hp with h | ⟨ch', c', hmem, hrec⟩
    · rcases dfsSearch_sound c (cur ++ [ch]) target k st p h with h' | h'
      · exact Or.inl h'
      · exact Or.inr ⟨ch, c, List.mem_cons_self _ _, h'⟩
    · exact Or.inr ⟨ch', c', List.mem_cons_of_mem _ hmem, hrec⟩
end

theorem wf_mk (cs : List (Char × TrieNode)) (e : Bool) (f : Int) :
    (TrieNode.mk cs e f).wf = true ↔ (cs.map Prod.fst).Nodup ∧ childrenWf cs = true := by
  rw [TrieNode.wf]; simp

theorem childrenWf_cons (ch : Char) (c : TrieNode) (rest : List (Char × TrieNode)) :
    childrenWf ((ch, c) :: rest) = true ↔ c.wf = true ∧ childrenWf rest = true := by
  rw [childrenWf]; simp

theorem childrenWf_mem (cs : List (Char × TrieNode)) (h : childrenWf cs = true)
    (ch : Char) (c : TrieNode) (hmem : (ch, c) ∈ cs) : c.wf = true := by
  induction cs with
  | nil => simp at hmem
  | cons p rest ih =>
    obtain ⟨k, v⟩ := p
    rw [childrenWf_cons] at h
    rcases List.mem_cons.1 hmem with e | e
    · cases e; exact h.1
    · exact ih h.2 e

theorem findChild_of_mem (cs : List (Char × TrieNode)) (hnd : (cs.map Prod.fst).Nodup)
    (ch : Char) (c : TrieNode) (hmem : (ch, c) ∈ cs) : findChild cs ch = some c := by
  induction cs with
  | nil => simp at hmem
  | cons p rest ih =>
    obtain ⟨k, v⟩ := p
    simp only [List.map_cons, List.nodup_cons, List.mem_map, not_exists, not_and] at hnd
    rcases List.mem_cons.1 hmem with e | e
    · cases e; simp [findChild]
    · have hne : k ≠ ch := fun hk => hnd.1 (ch, c) e hk.symm
      simp only [findChild, if_neg hne]
      exact ih hnd.2 e

theorem mem_of_findChild (cs : List (Char × TrieNode)) (ch : Char) (c : TrieNode)
    (h : findChild cs ch = some c) : (ch, c) ∈ cs := by
  induction cs with
  | nil => simp [findChild] at h
  | cons p rest ih =>
    obtain ⟨k, v⟩ := p
    by_cases hk : k = ch
    · simp [findChild, hk] at h; subst hk; subst h; exact List.mem_cons_self _ _
    · simp only [findChild, if_neg hk] at h
      exact List.mem_cons_of_mem _ (ih h)

/-- In a well-formed tree the nodes below `n` are the ones the lookups find. -/
theorem nodeAt_of_reachVia (n : TrieNode) (hwf : n.wf = true) (s : Word) (nd : TrieNode)
    (h : ReachVia n s nd) : nodeAt n s = some nd := by
  induction s generalizing n with
  | nil => simp only [ReachVia] at h; simp [nodeAt, h]
  | cons ch s ih =>
    obtain ⟨cs, e, f⟩ := n
    obtain ⟨c, hmem, hr⟩ := h
    rw [wf_mk] at hwf
    simp only [TrieNode.children] at hmem
    simp only [nodeAt, TrieNode.children, findChild_of_mem cs hwf.1 ch c hmem]
    exact ih c (childrenWf_mem cs hwf.2 ch c hmem) hr

/-- Pairs recorded by `autoCorrect`s traversal: within the bound, non-empty, and carrying
an end-of-word node reached from the root. -/
theorem dfs_root_sound (t : Trie) (q : Word) (k : Int) (p : Word × Int)
    (hp : p ∈ (dfsSearch t.root [] q k ([], [])).1) : RecordedBelow t.root [] q k p := by
  rcases dfsSearch_sound t.root [] q k ([], []) p hp with h | h
  · simp at h
  · exact h

theorem labelAt_nil (n : TrieNode) : labelAt n [] = (n.isEndOfWord, n.frequency) := rfl

theorem labelAt_cons (n : TrieNode) (ch : Char) (v : Word) :
    labelAt n (ch :: v)
      = match findChild n.children ch with
        | some c => labelAt c v
        | none => (false, 0) := by
  unfold labelAt
  simp only [nodeAt]
  cases findChild n.children ch <;> rfl

theorem labelAt_new (v : Word) : labelAt TrieNode.new v = (false, 0) := by
  cases v with
  | nil => rfl
  | cons ch v => rw [labelAt_cons]; rfl

theorem labelAt_child (cs : List (Char × TrieNode)) (e : Bool) (f : Int) (ch : Char) (v : Word) :
    labelAt (.mk cs e f) (ch :: v) = labelAt ((findChild cs ch).getD TrieNode.new) v := by
  rw [labelAt_cons]
  simp only [TrieNode.children]
  cases findChild cs ch with
  | none => simp [labelAt_new]
  | some c => simp

/-- The labels after `insertNode`: the inserted word is marked and counted once more,
every other path reads as before. -/
theorem labelAt_insertNode (n : TrieNode) (w v : Word) :
    labelAt (insertNode n w).1 v
      = if v = w then (true, wrapInt32 ((labelAt n w).2 + 1)) else labelAt n v := by
  induction w generalizing n v with
  | nil =>
    obtain ⟨cs, e, f⟩ := n
    rw [insertNode_nil]
    cases v with
    | nil => simp [labelAt_nil, TrieNode.isEndOfWord, TrieNode.frequency]
    | cons ch v => simp [labelAt_cons, TrieNode.children]
  | cons ch rest ih =>
    obtain ⟨cs, e, f⟩ := n
    rw [insertNode_cons]
    cases v with
    | nil => simp [labelAt_nil, TrieNode.isEndOfWord, TrieNode.frequency]
    | cons ch' v =>
      by_cases hch : ch' = ch
      · subst hch
        rw [labelAt_cons]
        simp only [TrieNode.children, findChild_setChild_same]
        rw [ih, labelAt_child, labelAt_child]
        simp
      · rw [if_neg (by simp [hch]), labelAt_cons, labelAt_cons (.mk cs e f)]
        simp only [TrieNode.children, findChild_setChild_other _ _ _ _ hch]

theorem searchNode_eq_labelAt (n : TrieNode) (w : Word) : searchNode n w = (labelAt n w).1 := by
  induction w generalizing n with
  | nil => rfl
  | cons ch rest ih =>
    rw [labelAt_cons]
    simp only [searchNode]
    cases findChild n.children ch with
    | none => rfl
    | some c => exact ih c

theorem Trie.search_insert (t : Trie) (w v : Word) :
    (t.insert w).search v = if v = w then true else t.search v := by
  unfold Trie.search Trie.insert
  simp only [searchNode_eq_labelAt, labelAt_insertNode]
  split <;> rfl

theorem wrapInt32_add (x y : Int) : wrapInt32 (wrapInt32 x + y) = wrapInt32 (x + y) := by
  unfold wrapInt32; omega

theorem wrapInt32_ne_of_gt (x : Int) (h : 2147483647 < x) : wrapInt32 x ≠ x := by
  unfold wrapInt32; omega

theorem setChild_keys (cs : List (Char × TrieNode)) (ch : Char) (c : TrieNode) :
    (setChild cs ch c).map Prod.fst
      = if ch ∈ cs.map Prod.fst then cs.map Prod.fst else cs.map Prod.fst ++ [ch] := by
  induction cs with
  | nil => simp [setChild]
  | cons p rest ih =>
    obtain ⟨k, v⟩ := p
    by_cases h : k = ch
    · subst h; simp [setChild]
    · have h' : ¬ ch = k := fun e => h e.symm
      simp only [setChild, if_neg h, List.map_cons, ih, List.mem_cons, h', false_or]
      split <;> simp

theorem setChild_keys_nodup (cs : List (Char × TrieNode)) (ch : Char) (c : TrieNode)
    (h : (cs.map Prod.fst).Nodup) : ((setChild cs ch c).map Prod.fst).Nodup := by
  rw [setChild_keys]
  split
  · exact h
  · rename_i hn
    rw [List.nodup_append]
    refine ⟨h, List.nodup_singleton _, ?_⟩
    intro a ha hb
    simp only [List.mem_singleton] at hb
    subst hb
    exact hn ha

theorem childrenWf_setChild (cs : List (Char × TrieNode)) (ch : Char) (c : TrieNode)
    (h : childrenWf cs = true) (hc : c.wf = true) : childrenWf (setChild cs ch c) = true := by
  induction cs with
  | nil => simp [setChild, childrenWf, hc]
  | cons p rest ih =>
    obtain ⟨k, v⟩ := p
    rw [childrenWf_cons] at h
    by_cases hk : k = ch
    · simp only [setChild, if_pos hk, childrenWf_cons]
      exact ⟨hc, h.2⟩
    · simp only [setChild, if_neg hk, childrenWf_cons]
      exact ⟨h.1, ih h.2⟩

theorem wf_new : TrieNode.new.wf = true := by
  rw [TrieNode.new, wf_mk]; simp [childrenWf]

theorem wf_findChild_getD (cs : List (Char × TrieNode)) (h : childrenWf cs = true) (ch : Char) :
    ((findChild cs ch).getD TrieNode.new).wf = true := by
  cases hf : findChild cs ch with
  | none => exact wf_new
  | some c => exact childrenWf_mem cs h ch c (mem_of_findChild cs ch c hf)

theorem wf_insertNode (n : TrieNode) (w : Word) (h : n.wf = true) :
    (insertNode n w).1.wf = true := by
  induction w generalizing n with
  | nil =>
    obtain ⟨cs, e, f⟩ := n
    rw [insertNode_nil]
    rw [wf_mk] at h ⊢
    exact h
  | cons ch rest ih =>
    obtain ⟨cs, e, f⟩ := n
    rw [insertNode_cons]
    rw [wf_mk] at h ⊢
    exact ⟨setChild_keys_nodup cs ch _ h.1,
      childrenWf_setChild cs ch _ h.2 (ih _ (wf_findChild_getD cs h.2 ch))⟩

/-- Trees built by inserts have pairwise distinct keys in every children map. -/
theorem Trie.Reachable.wf {t : Trie} (h : t.Reachable) : t.root.wf = true := by
  induction h with
  | empty => exact wf_new
  | insert t w _ ih => exact wf_insertNode t.root w ih

/-! ## Stored frequencies and recorded pairs -/

theorem Trie.frequencyOf_eq_labelAt (t : Trie) (w : Word) :
    t.frequencyOf w = (labelAt t.root w).2 := by
  unfold Trie.frequencyOf labelAt
  cases nodeAt t.root w <;> rfl

theorem Trie.frequencyOf_insert (t : Trie) (w v : Word) :
    (t.insert w).frequencyOf v
      = if v = w then wrapInt32 (t.frequencyOf w + 1) else t.frequencyOf v := by
  simp only [Trie.frequencyOf_eq_labelAt, Trie.insert, labelAt_insertNode]
  split <;> rfl

/-- The stored frequency of a word that was inserted is its old frequency plus the number of
times it was inserted, as an `int` holds it. -/
theorem Trie.frequencyOf_insertAll (t : Trie) (ws : List Word) (v : Word) :
    (t.insertAll ws).frequencyOf v
      = if ws.count v = 0 then t.frequencyOf v
        else wrapInt32 (t.frequencyOf v + (ws.count v : Int)) := by
  induction ws generalizing t with
  | nil => simp [Trie.insertAll]
  | cons w ws ih =>
    rw [Trie.insertAll, ih, Trie.frequencyOf_insert, List.count_cons]
    by_cases e : v = w
    · subst e
      simp only [if_true, beq_self_eq_true, Nat.add_eq_zero, one_ne_zero, and_false, if_false]
      split
      · rename_i h0; rw [h0]; simp
      · rw [wrapInt32_add]; push_cast; congr 1; omega
    · have e' : (w == v) = false := by simpa using fun h : w = v => e h.symm
      simp [e, e']

theorem Trie.Reachable.insertAll {t : Trie} (h : t.Reachable) (ws : List Word) :
    (t.insertAll ws).Reachable := by
  induction ws generalizing t with
  | nil => exact h
  | cons w ws ih => exact ih (Trie.Reachable.insert t w h)

theorem frequencyOf_of_recorded (t : Trie) (hwf : t.root.wf = true) (q : Word) (k : Int)
    (p : Word × Int) (hp : RecordedBelow t.root [] q k p) : t.frequencyOf p.1 = p.2 := by
  obtain ⟨s, nd, h1, h2, _, h4, _⟩ := hp
  rw [List.nil_append] at h1
  unfold Trie.frequencyOf
  rw [h1, nodeAt_of_reachVia t.root hwf s nd h2]
  exact h4

theorem lev_le_of_minEditDistance_le (a b : Word) (k : Int) (h : minEditDistance a b k ≤ k) :
    (lev a b : Int) ≤ k := by
  rcases minEditDistance_spec a b k with e | ⟨e, _⟩
  · rw [← e]; exact h
  · omega

/-! ## Completeness of the traversal, the node count and the scenario tree -/

theorem dfsInv_init : DfsInv ([], []) := by
  constructor
  · simp
  · intro w; simp

theorem mem_words_of_mem {p : Word × Int} {l : Results} (h : p ∈ l) :
    p.1 ∈ l.map Prod.fst := List.mem_map.2 ⟨p, h, rfl⟩

/-- The step of `dfsSearch` at the node itself: the invariant is kept, nothing is lost, and
the word of the node is among the words of `results` when it qualifies. -/
theorem dfs_visit (e : Bool) (f : Int) (cur target : Word) (k : Int) (st : DfsState)
    (hinv : DfsInv st) :
    let st1 : DfsState :=
      if e && decide (cur.length > 0) then
        if cur ∉ st.2 then
          if minEditDistance target cur k ≤ k then (st.1 ++ [(cur, f)], cur :: st.2) else st
        else st
      else st
    DfsInv st1 ∧ (∀ p, p ∈ st.1 → p ∈ st1.1) ∧
    (e = true → cur ≠ [] → minEditDistance target cur k ≤ k → cur ∈ st1.1.map Prod.fst) := by
  intro st1
  obtain ⟨hnd, hseen⟩ := hinv
  by_cases hc1 : (e && decide (cur.length > 0)) = true
  · by_cases hc2 : cur ∉ st.2
    · by_cases hc3 : minEditDistance target cur k ≤ k
      · have e1 : st1 = (st.1 ++ [(cur, f)], cur :: st.2) := by
          simp only [st1, if_pos hc1, if_pos hc2, if_pos hc3]
        rw [e1]
        refine ⟨⟨?_, ?_⟩, ?_, ?_⟩
        · simp only [List.map_append, List.map_cons, List.map_nil]
          rw [List.nodup_append]
          refine ⟨hnd, List.nodup_singleton _, ?_⟩
          intro a ha hb
          simp only [List.mem_singleton] at hb
          subst hb
          exact hc2 ((hseen a).2 ha)
        · intro w
          simp only [List.mem_cons, List.map_append, List.map_cons, List.map_nil,
            List.mem_append, List.mem_singleton, hseen w]
          tauto
        · intro p hp
          exact List.mem_append_left _ hp
        · intro _ _ _
          simp
      · have e1 : st1 = st := by simp only [st1, if_pos hc1, if_pos hc2, if_neg hc3]
        rw [e1]
        exact ⟨⟨hnd, hseen⟩, fun p hp => hp, fun _ _ h => absurd h hc3⟩
    · have e1 : st1 = st := by simp only [st1, if_pos hc1, if_neg hc2]
      rw [e1]
      refine ⟨⟨hnd, hseen⟩, fun p hp => hp, fun _ _ _ => ?_⟩
      exact (hseen cur).1 (not_not.1 hc2)
  · have e1 : st1 = st := by simp only [st1, if_neg hc1]
    rw [e1]
    refine ⟨⟨hnd, hseen⟩, fun p hp => hp, fun he hne _ => ?_⟩
    exfalso
    apply hc1
    simp only [Bool.and_eq_true, decide_eq_true_eq]
    exact ⟨he, List.length_pos.2 hne⟩

mutual
/-- The traversal keeps the invariant, loses no recorded pair, and covers the subtree. -/
theorem dfsSearch_complete : ∀ (node : TrieNode) (cur target : Word) (k : Int)
    (st : DfsState), DfsInv st →
    DfsInv (dfsSearch node cur target k st) ∧
    (∀ p, p ∈ st.1 → p ∈ (dfsSearch node cur target k st).1) ∧
    Covers node cur target k (dfsSearch node cur target k st)
  | .mk cs e f, cur, target, k, st, hinv => by
    rw [dfsSearch_mk]
    obtain ⟨h1, h2, h3⟩ := dfs_visit e f cur target k st hinv
    obtain ⟨g1, g2, g3⟩ := dfsChildren_complete cs cur target k _ h1
    refine ⟨g1, fun p hp => g2 p (h2 p hp), ?_⟩
    intro s nd hr hend hne hd
    cases s with
    | nil =>
      simp only [ReachVia] at hr
      subst hr
      simp only [List.append_nil] at hne hd ⊢
      obtain ⟨p, hp, hp1⟩ := List.mem_map.1 (h3 hend hne hd)
      exact List.mem_map.2 ⟨p, g2 p hp, hp1⟩
    | cons ch s =>
      obtain ⟨c, hmem, hr2⟩ := hr
      have := g3 ch c hmem s nd hr2 hend (by simp) (by simpa using hd)
      simpa using this
/-- The same for the loop over the children. -/
theorem dfsChildren_complete : ∀ (cs : List (Char × TrieNode)) (cur target : Word) (k : Int)
    (st : DfsState), DfsInv st →
    DfsInv (dfsChildren cs cur target k st) ∧
    (∀ p, p ∈ st.1 → p ∈ (dfsChildren cs cur target k st).1) ∧
    (∀ ch c, (ch, c) ∈ cs → Covers c (cur ++ [ch]) target k (dfsChildren cs cur target k st))
  | [], cur, target, k, st, hinv => by
    rw [dfsChildren_nil]
    exact ⟨hinv, fun p hp => hp, fun ch c h => by simp at h⟩
  | (ch, c) :: rest, cur, target, k, st, hinv => by
    rw [dfsChildren_cons]
    obtain ⟨h1, h2, h3⟩ := dfsSearch_complete c (cur ++ [ch]) target k st hinv
    obtain ⟨g1, g2, g3⟩ := dfsChildren_complete rest cur target k _ h1
    refine ⟨g1, fun p hp => g2 p (h2 p hp), ?_⟩
    intro ch' c' hmem
    rcases List.mem_cons.1 hmem with e | e
    · cases e
      intro s nd hr hend hne hd
      obtain ⟨p, hp, hp1⟩ := List.mem_map.1 (h3 s nd hr hend hne hd)
      exact List.mem_map.2 ⟨p, g2 p hp, hp1⟩
    · exact g3 ch' c' e
end

theorem reachVia_of_nodeAt (n : TrieNode) (s : Word) (nd : TrieNode)
    (h : nodeAt n s = some nd) : ReachVia n s nd := by
  induction s generalizing n with
  | nil =>
    simp only [nodeAt, Option.some.injEq] at h
    exact h.symm
  | cons ch s ih =>
    simp only [nodeAt] at h
    cases hf : findChild n.children ch with
    | none => rw [hf] at h; simp at h
    | some c =>
      rw [hf] at h
      exact ⟨c, mem_of_findChild _ _ _ hf, ih c h⟩

theorem searchNode_iff_nodeAt (n : TrieNode) (s : Word) :
    searchNode n s = true ↔ ∃ nd, nodeAt n s = some nd ∧ nd.isEndOfWord = true := by
  induction s generalizing n with
  | nil => simp [searchNode, nodeAt]
  | cons ch s ih =>
    simp only [searchNode, nodeAt]
    cases findChild n.children ch with
    | none => simp
    | some c => exact ih c

/-- The threshold test on `minEditDistance` is the threshold test on the distance. -/
theorem minEditDistance_le_iff (a b : Word) (k : Int) :
    minEditDistance a b k ≤ k ↔ (lev a b : Int) ≤ k := by
  constructor
  · exact lev_le_of_minEditDistance_le a b k
  · intro h
    rcases minEditDistance_spec a b k with e | ⟨_, hlt⟩
    · rw [e]; exact h
    · omega

theorem recorded_inv (t : Trie) (q : Word) (k : Int) :
    DfsInv (dfsSearch t.root [] q k ([], [])) :=
  (dfsSearch_complete t.root [] q k ([], []) dfsInv_init).1

/-- No word is recorded twice by the traversal. -/
theorem recorded_nodup (t : Trie) (q : Word) (k : Int) :
    ((t.recorded q k).map Prod.fst).Nodup :=
  (recorded_inv t q k).1

/-- Every non-empty word of the tree within the bound is recorded by the traversal. -/
theorem recorded_complete (t : Trie) (q : Word) (k : Int) (v : Word) (hne : v ≠ [])
    (hv : t.search v = true) (hd : (lev q v : Int) ≤ k) :
    v ∈ (t.recorded q k).map Prod.fst := by
  obtain ⟨nd, hnd, hend⟩ := (searchNode_iff_nodeAt t.root v).1 hv
  have hcov := (dfsSearch_complete t.root [] q k ([], []) dfsInv_init).2.2
  have := hcov v nd (reachVia_of_nodeAt t.root v nd hnd) hend (by simpa using hne)
    (by rw [List.nil_append]; exact (minEditDistance_le_iff q v k).2 hd)
  simpa using this

/-- In a well-formed tree a recorded pair holds a non-empty word of the tree within the
bound, together with the frequency stored for it. -/
theorem recorded_sound (t : Trie) (hwf : t.root.wf = true) (q : Word) (k : Int)
    (p : Word × Int) (hp : p ∈ t.recorded q k) :
    p.1 ≠ [] ∧ t.search p.1 = true ∧ (lev q p.1 : Int) ≤ k ∧ p.2 = t.frequencyOf p.1 := by
  have hrec := dfs_root_sound t q k p hp
  have hf := frequencyOf_of_recorded t hwf q k p hrec
  obtain ⟨s, nd, h1, h2, h3, _, h5, h6⟩ := hrec
  rw [List.nil_append] at h1
  refine ⟨h5, ?_, lev_le_of_minEditDistance_le q p.1 k h6, hf.symm⟩
  unfold Trie.search
  rw [searchNode_iff_nodeAt, h1]
  exact ⟨nd, nodeAt_of_reachVia t.root hwf s nd h2, h3⟩

/-- The words recorded in a well-formed tree: the non-empty words of the tree within the
bound. -/
theorem mem_recorded_words (t : Trie) (hwf : t.root.wf = true) (q : Word) (k : Int)
    (v : Word) :
    v ∈ (t.recorded q k).map Prod.fst ↔
      v ≠ [] ∧ t.search v = true ∧ (lev q v : Int) ≤ k := by
  constructor
  · intro h
    obtain ⟨p, hp, rfl⟩ := List.mem_map.1 h
    obtain ⟨h1, h2, h3, _⟩ := recorded_sound t hwf q k p hp
    exact ⟨h1, h2, h3⟩
  · rintro ⟨h1, h2, h3⟩
    exact recorded_complete t q k v h1 h2 h3

theorem autoCorrect_eq_recorded (sort : Results → Results) (t : Trie) (q : Word) (k : Int)
    (hq : t.search q = false) :
    t.autoCorrect sort q k = ((sort (t.recorded q k)).take 5).map Prod.fst :=
  autoCorrect_of_not_search sort t q k hq

/-- With at most five recorded pairs nothing is cut off. -/
theorem autoCorrect_perm_of_length_le (sort : Results → Results)
    (hs : IsStdSort Trie.byFrequency sort) (t : Trie) (q : Word) (k : Int)
    (hq : t.search q = false) (hlen : (t.recorded q k).length ≤ 5) :
    (t.autoCorrect sort q k).Perm ((t.recorded q k).map Prod.fst) := by
  rw [autoCorrect_eq_recorded sort t q k hq]
  have hp := (hs (t.recorded q k)).1
  rw [List.take_of_length_le (by rw [hp.length_eq]; exact hlen)]
  exact hp.map _

theorem Trie.search_insertAll (t : Trie) (ws : List Word) (v : Word) :
    (t.insertAll ws).search v = true ↔ t.search v = true ∨ v ∈ ws := by
  induction ws generalizing t with
  | nil => simp [Trie.insertAll]
  | cons w ws ih =>
    rw [Trie.insertAll, ih, Trie.search_insert]
    by_cases e : v = w
    · simp [e]
    · simp [e]

theorem Trie.search_empty (v : Word) : Trie.empty.search v = false := by
  unfold Trie.search
  rw [searchNode_eq_labelAt]
  simp [Trie.empty, labelAt_new]

theorem recorded_empty (q : Word) (k : Int) : Trie.empty.recorded q k = [] := by
  simp [Trie.recorded, Trie.empty, TrieNode.new, dfsSearch_mk, dfsChildren_nil]

theorem nodup_eq_singleton {α : Type} (l : List α) (a : α) (hnd : l.Nodup)
    (hmem : ∀ v, v ∈ l ↔ v = a) : l = [a] := by
  have hp : l.Perm [a] := by
    rw [List.perm_ext_iff_of_nodup hnd (List.nodup_singleton a)]
    intro v; simp [hmem v]
  exact List.perm_singleton.1 hp

theorem catTrie_eq_insertAll :
    catTrie = Trie.empty.insertAll
      [['c', 'a', 't'], ['c', 'a', 't'], ['c', 'a', 't', 's'], ['c', 'a', 'r']] := rfl

theorem catTrie_search (v : Word) :
    catTrie.search v = true ↔
      v = ['c', 'a', 't'] ∨ v = ['c', 'a', 't', 's'] ∨ v = ['c', 'a', 'r'] := by
  rw [catTrie_eq_insertAll, Trie.search_insertAll, Trie.search_empty]
  simp

/-! ## The claims -/

/-- C1. Round-trip membership: for every tree (in particular every tree built by inserts)
and every word `w`, the empty word included, `search(w)` is true right after `insert(w)`. -/
theorem search_after_insert (t : Trie) (w : Word) : (t.insert w).search w = true :=
  searchNode_insertNode t.root w

/-- C2. Exact-match short-circuit: whenever `search(w)` is true, `autoCorrect(w, maxDist)` is
the one-element list `[w]`, for every bound `maxDist` (zero and negative bounds included) and
whatever `std::sort` does; this is the case right after `insert(w)`. -/
theorem autoCorrect_exact_match (sort : Results → Results) (t : Trie) (w : Word)
    (maxDist : Int) (h : t.search w = true) :
    t.autoCorrect sort w maxDist = [w] ∧ (t.insert w).autoCorrect sort w maxDist = [w] :=
  ⟨autoCorrect_of_search sort t w maxDist h,
    autoCorrect_of_search sort (t.insert w) w maxDist (searchNode_insertNode t.root w)⟩

/-- Witness of C2: after `insert("dog")` on the empty tree, `autoCorrect("dog", 2)` is
`["dog"]`. -/
theorem autoCorrect_exact_match_witness :
    (Trie.empty.insert ['d', 'o', 'g']).search ['d', 'o', 'g'] = true ∧
    (Trie.empty.insert ['d', 'o', 'g']).autoCorrect sortDescending ['d', 'o', 'g'] 2
      = [['d', 'o', 'g']] :=
  ⟨by decide,
    (autoCorrect_exact_match sortDescending (Trie.empty.insert ['d', 'o', 'g'])
      ['d', 'o', 'g'] 2 (by decide)).1⟩

/-- C8. Suggestions are ranked by frequency: for every well-formed tree (children maps with
distinct keys, listed in any order; every tree built by inserts is one), every query and
every `maxDist`, the words returned by `autoCorrect` come in non-increasing order of their
stored frequency, for every admissible `std::sort`. -/
theorem autoCorrect_sorted_by_frequency (sort : Results → Results)
    (hs : IsStdSort Trie.byFrequency sort) (t : Trie) (hwf : t.root.wf = true) (q : Word)
    (maxDist : Int) :
    (t.autoCorrect sort q maxDist).Pairwise
      (fun w1 w2 => t.frequencyOf w2 ≤ t.frequencyOf w1) := by
  cases hq : t.search q with
  | true =>
    rw [autoCorrect_of_search sort t q maxDist hq]
    exact List.pairwise_singleton _ _
  | false =>
    rw [autoCorrect_of_not_search sort t q maxDist hq, List.pairwise_map]
    refine List.Pairwise.sublist (List.take_sublist 5 _) ?_
    refine List.Pairwise.imp_of_mem ?_ (hs _).2
    intro x y hx hy hxy
    have hx2 := dfs_root_sound t q maxDist x ((hs _).1.mem_iff.1 hx)
    have hy2 := dfs_root_sound t q maxDist y ((hs _).1.mem_iff.1 hy)
    rw [frequencyOf_of_recorded t hwf q maxDist x hx2,
      frequencyOf_of_recorded t hwf q maxDist y hy2]
    simpa [Trie.byFrequency] using hxy

/-- Witness of C8: the scenario tree and the query "cax" with the bound 2, which yields
"cat" (twice inserted) before "cats" and "car". -/
theorem autoCorrect_sorted_by_frequency_witness :
    catTrie.root.wf = true ∧
    catTrie.autoCorrect sortDescending ['c', 'a', 'x'] 2
      = [['c', 'a', 't'], ['c', 'a', 't', 's'], ['c', 'a', 'r']] ∧
    (catTrie.autoCorrect sortDescending ['c', 'a', 'x'] 2).Pairwise
      (fun w1 w2 => catTrie.frequencyOf w2 ≤ catTrie.frequencyOf w1) :=
  ⟨by decide, by decide,
    autoCorrect_sorted_by_frequency sortDescending sortDescending_isStdSort catTrie
      (by decide) ['c', 'a', 'x'] 2⟩

/-- C9. Suggestion count limit: `autoCorrect` returns at most 5 words, for every tree, query
and bound, whatever `std::sort` returns. -/
theorem autoCorrect_length_le_five (sort : Results → Results) (t : Trie) (q : Word)
    (maxDist : Int) : (t.autoCorrect sort q maxDist).length ≤ 5 := by
  cases hq : t.search q with
  | true => rw [autoCorrect_of_search sort t q maxDist hq]; simp
  | false =>
    rw [autoCorrect_of_not_search sort t q maxDist hq, List.length_map, List.length_take]
    exact min_le_left _ _

/-- C11. Exact membership: after any finite sequence of inserts into the empty tree,
`search(v)` is true exactly when `v` occurs in the sequence; and `insert(w)` leaves `search(v)`
as it was for every `v` other than `w` (prefixes and extensions of `w` included). -/
theorem search_iff_inserted (ws : List Word) (v : Word) :
    ((Trie.empty.insertAll ws).search v = true ↔ v ∈ ws) ∧
    ∀ (t : Trie) (w : Word), v ≠ w → (t.insert w).search v = t.search v := by
  constructor
  · rw [Trie.search_insertAll, Trie.search_empty]
    simp
  · intro t w hne
    rw [Trie.search_insert, if_neg hne]

/-- Witness of C11: inserting "cat" into the empty tree does not make its prefix "ca" a
word. -/
theorem search_iff_inserted_witness :
    (['c', 'a'] : Word) ≠ ['c', 'a', 't'] ∧
    (Trie.empty.insert ['c', 'a', 't']).search ['c', 'a'] = Trie.empty.search ['c', 'a'] :=
  ⟨by decide, (search_iff_inserted [] ['c', 'a']).2 Trie.empty ['c', 'a', 't'] (by decide)⟩

/-- C12. Empty tree: on the freshly constructed tree `autoCorrect(q, k)` is the empty list
for every query `q` (the empty string included) and every bound `k`, for every admissible
`std::sort`. -/
theorem autoCorrect_empty_tree (sort : Results → Results)
    (hs : IsStdSort Trie.byFrequency sort) (q : Word) (k : Int) :
    Trie.empty.autoCorrect sort q k = [] := by
  have hp := autoCorrect_perm_of_length_le sort hs Trie.empty q k (Trie.search_empty q)
    (by rw [recorded_empty]; simp)
  rw [recorded_empty] at hp
  exact List.perm_nil.1 hp

/-- Witness of C12: the empty query with the bound 0 on the empty tree. -/
theorem autoCorrect_empty_tree_witness :
    IsStdSort Trie.byFrequency sortDescending ∧
    Trie.empty.autoCorrect sortDescending [] 0 = [] :=
  ⟨sortDescending_isStdSort,
    autoCorrect_empty_tree sortDescending sortDescending_isStdSort [] 0⟩

/-- C14. Scenario: in the tree holding "cat" (twice), "cats" and "car", with the children
maps in any iteration order, `autoCorrect("cot", 1)` is exactly `["cat"]`, for every
admissible `std::sort`. -/
theorem autoCorrect_cot (sort : Results → Results) (hs : IsStdSort Trie.byFrequency sort)
    (t : Trie) (hwf : t.root.wf = true) (hsame : ∀ v, t.search v = catTrie.search v) :
    t.autoCorrect sort ['c', 'o', 't'] 1 = [['c', 'a', 't']] := by
  have hq : t.search ['c', 'o', 't'] = false := by rw [hsame]; decide
  have hw : (t.recorded ['c', 'o', 't'] 1).map Prod.fst = [['c', 'a', 't']] := by
    apply nodup_eq_singleton _ _ (recorded_nodup t _ _)
    intro v
    rw [mem_recorded_words t hwf, hsame, catTrie_search]
    constructor
    · rintro ⟨_, h | h | h, hd⟩
      · exact h
      · subst h; exact absurd hd (by decide)
      · subst h; exact absurd hd (by decide)
    · intro h
      subst h
      exact ⟨by decide, Or.inl rfl, by decide⟩
  have hlen : (t.recorded ['c', 'o', 't'] 1).length ≤ 5 := by
    have := congrArg List.length hw
    rw [List.length_map] at this
    rw [this]; simp
  have hp := autoCorrect_perm_of_length_le sort hs t _ 1 hq hlen
  rw [hw] at hp
  exact List.perm_singleton.1 hp

/-- Witness of C14: the tree built by the four inserts, with insertion sort. -/
theorem autoCorrect_cot_witness :
    catTrie.root.wf = true ∧
    catTrie.autoCorrect sortDescending ['c', 'o', 't'] 1 = [['c', 'a', 't']] :=
  ⟨by decide,
    autoCorrect_cot sortDescending sortDescending_isStdSort catTrie (by decide)
      (fun _ => rfl)⟩

/-- C15. Scenario: in the tree holding "cat" (twice), "cats" and "car", with the children
maps in any iteration order, `autoCorrect("zzz", 2)` is the empty list, for every admissible
`std::sort`. -/
theorem autoCorrect_zzz (sort : Results → Results) (hs : IsStdSort Trie.byFrequency sort)
    (t : Trie) (hwf : t.root.wf = true) (hsame : ∀ v, t.search v = catTrie.search v) :
    t.autoCorrect sort ['z', 'z', 'z'] 2 = [] := by
  have hq : t.search ['z', 'z', 'z'] = false := by rw [hsame]; decide
  have hw : (t.recorded ['z', 'z', 'z'] 2).map Prod.fst = [] := by
    rw [List.eq_nil_iff_forall_not_mem]
    intro v hv
    rw [mem_recorded_words t hwf, hsame, catTrie_search] at hv
    obtain ⟨_, h | h | h, hd⟩ := hv
    · subst h; exact absurd hd (by decide)
    · subst h; exact absurd hd (by decide)
    · subst h; exact absurd hd (by decide)
  have hlen : (t.recorded ['z', 'z', 'z'] 2).length ≤ 5 := by
    have := congrArg List.length hw
    rw [List.length_map] at this
    rw [this]; simp
  have hp := autoCorrect_perm_of_length_le sort hs t _ 2 hq hlen
  rw [hw] at hp
  exact List.perm_nil.1 hp

/-- Witness of C15: the tree built by the four inserts, with insertion sort. -/
theorem autoCorrect_zzz_witness :
    catTrie.root.wf = true ∧ catTrie.autoCorrect sortDescending ['z', 'z', 'z'] 2 = [] :=
  ⟨by decide,
    autoCorrect_zzz sortDescending sortDescending_isStdSort catTrie (by decide)
      (fun _ => rfl)⟩

/-- C18. No duplicate suggestions: for every tree, query and bound, and every admissible
`std::sort`, the list returned by `autoCorrect` holds no word twice. -/
theorem autoCorrect_nodup (sort : Results → Results)
    (hs : IsStdSort Trie.byFrequency sort) (t : Trie) (q : Word) (maxDist : Int) :
    (t.autoCorrect sort q maxDist).Nodup := by
  cases hq : t.search q with
  | true =>
    rw [autoCorrect_of_search sort t q maxDist hq]
    exact List.nodup_singleton q
  | false =>
    rw [autoCorrect_eq_recorded sort t q maxDist hq, List.map_take]
    refine List.Nodup.sublist (List.take_sublist 5 _) ?_
    exact (((hs (t.recorded q maxDist)).1.map Prod.fst).nodup_iff).2 (recorded_nodup t q maxDist)

/-- Witness of C18: the scenario tree, where "cat" was inserted twice, queried with "cax"
and the bound 2. -/
theorem autoCorrect_nodup_witness :
    IsStdSort Trie.byFrequency sortDescending ∧
    (catTrie.autoCorrect sortDescending ['c', 'a', 'x'] 2).Nodup :=
  ⟨sortDescending_isStdSort,
    autoCorrect_nodup sortDescending sortDescending_isStdSort catTrie ['c', 'a', 'x'] 2⟩

/-- C20. The empty word is never a fuzzy suggestion: for every tree (the ones holding the
empty word included), if `search(q)` is false then the empty word does not occur in
`autoCorrect(q, maxDist)`; whenever the empty word is returned, the query is the empty word
itself, found by `search`, and the result is the one-element list of the exact-match path. -/
theorem autoCorrect_no_empty_word (sort : Results → Results)
    (hs : IsStdSort Trie.byFrequency sort) (t : Trie) (q : Word) (maxDist : Int)
    (hq : t.search q = false) :
    ([] : Word) ∉ t.autoCorrect sort q maxDist ∧
    ∀ q' : Word, ([] : Word) ∈ t.autoCorrect sort q' maxDist →
      q' = [] ∧ t.search [] = true ∧ t.autoCorrect sort q' maxDist = [[]] := by
  have key : ∀ q' : Word, t.search q' = false → ([] : Word) ∉ t.autoCorrect sort q' maxDist := by
    intro q' hq' hmem
    rw [autoCorrect_eq_recorded sort t q' maxDist hq'] at hmem
    obtain ⟨p, hp, hp1⟩ := List.mem_map.1 hmem
    have hpR : p ∈ t.recorded q' maxDist :=
      (hs _).1.mem_iff.1 (List.mem_of_mem_take hp)
    obtain ⟨_, _, _, _, _, _, hne, _⟩ := dfs_root_sound t q' maxDist p hpR
    exact hne hp1
  refine ⟨key q hq, ?_⟩
  intro q' hmem
  cases hq' : t.search q' with
  | false => exact absurd hmem (key q' hq')
  | true =>
    rw [autoCorrect_of_search sort t q' maxDist hq'] at hmem ⊢
    have e : q' = [] := (List.mem_singleton.1 hmem).symm
    subst e
    exact ⟨rfl, hq', rfl⟩

/-- Witness of C20: the tree holding only the empty word, queried with "a" and the
bound 1. -/
theorem autoCorrect_no_empty_word_witness :
    emptyWordTrie.search [] = true ∧ emptyWordTrie.search ['a'] = false ∧
    ([] : Word) ∉ emptyWordTrie.autoCorrect sortDescending ['a'] 1 :=
  ⟨by decide, by decide,
    (autoCorrect_no_empty_word sortDescending sortDescending_isStdSort emptyWordTrie ['a'] 1
      (by decide)).1⟩
